import Mathlib

/-!
Verification of the L-system grammar engine and turtle-graphics geometry
compiler of this repository.  The JavaScript source is shallowly embedded:
the grammar engine works over lists of characters with rational weights,
geometry works over real scalars, and the mutable output buffers become an
explicit record threaded through the interpreters.  The random number
generator is modelled as an explicit draw supply, a function from the draw
counter to a rational value.
-/

namespace Plant

/-- One weighted alternative of a stochastic rule: an object of the form
seen in the source, with a probability and a replacement string. -/
structure Alt where
  prob : ℚ
  res : String
deriving DecidableEq

/-- A rule is either a plain replacement string (deterministic) or an array
of weighted alternatives (stochastic), mirroring the duck-typed check
in the source, which tests whether the rule is an array. -/
inductive Rule where
  | det : String → Rule
  | stoch : List Alt → Rule

/-- The rules object: a partial map from characters to rules. -/
abbrev Rules := Char → Option Rule

/-- The selection loop of the stochastic branch of the source rewriter:
walk the alternatives accumulating probabilities and return the first
alternative whose cumulative probability is at least the draw; return
none when the loop never breaks. -/
def selectLoop : List Alt → ℚ → ℚ → Option String
  | [], _, _ => none
  | a :: rest, rand, cumulative =>
    let c := cumulative + a.prob
    if rand ≤ c then some a.res else selectLoop rest rand c

/-- Weighted selection as in the source: the variable selected is
initialised to the result of the final alternative (the fallback) and
then the loop may overwrite it with the first qualifying alternative.
For an empty alternative list the source would fault reading the
fallback; that unreachable case is modelled by the empty string. -/
def selectStoch (alts : List Alt) (rand : ℚ) : String :=
  let fallback := ((alts.getLast?).map Alt.res).getD ""
  (selectLoop alts rand 0).getD fallback

/-- One rewriting pass over the current symbol array, as in the inner loop
of the run function of the source.  The natural number argument counts
random draws made so far, so the draw supply g is consumed left to
right, one draw per stochastic symbol. -/
def rewriteOnce (rules : Rules) (g : ℕ → ℚ) : List Char → ℕ → List Char × ℕ
  | [], idx => ([], idx)
  | c :: rest, idx =>
    match rules c with
    | some (Rule.stoch alts) =>
      let t := rewriteOnce rules g rest (idx + 1)
      ((selectStoch alts (g idx)).toList ++ t.1, t.2)
    | some (Rule.det s) =>
      let t := rewriteOnce rules g rest idx
      (s.toList ++ t.1, t.2)
    | none =>
      let t := rewriteOnce rules g rest idx
      (c :: t.1, t.2)

/-- The iteration loop of the run function: repeatedly rewrite the current
array, threading the draw counter. -/
def runFrom (rules : Rules) (g : ℕ → ℚ) : ℕ → List Char → ℕ → List Char
  | 0, cur, _ => cur
  | n + 1, cur, idx =>
    runFrom rules g n (rewriteOnce rules g cur idx).1 (rewriteOnce rules g cur idx).2

/-- The run function of the source: split the start string into characters,
rewrite it for the requested number of iterations, and return the final
symbol array. -/
def run (rules : Rules) (g : ℕ → ℚ) (iterations : ℕ) (startString : String) : List Char :=
  runFrom rules g iterations startString.toList 0

/-- Cumulative probability of the first k alternatives, in declared order. -/
def cumProb (alts : List Alt) (k : ℕ) : ℚ :=
  ((alts.take k).map Alt.prob).sum

/-- The fractal plant grammar of createGrammar. -/
def fractalRules : Rules := fun c =>
  if c = 'X' then some (Rule.det "F+[[X]-X]-F[-FX]+X")
  else if c = 'F' then some (Rule.det "FF")
  else none

/-- The sympodial tree grammar of createGrammar. -/
def sympodialRules : Rules := fun c =>
  if c = 'X' then some (Rule.det "F[+X]F[-X]+X")
  else if c = 'F' then some (Rule.det "FF")
  else none

/-- The stochastic tree grammar of createGrammar. -/
def stochasticRules : Rules := fun c =>
  if c = 'F' then
    some (Rule.stoch [⟨0.33, "F[+F]F[-F]F"⟩, ⟨0.33, "F[+F]F"⟩, ⟨0.34, "F[-F]F"⟩])
  else none

/-- The legacy sierpinski grammar of createGrammar. -/
def sierpinskiRules : Rules := fun c =>
  if c = 'A' then some (Rule.det "B-A-B")
  else if c = 'B' then some (Rule.det "A+B+A")
  else none

/-- The grammar whose only rule is F to FF, used by the doubling property. -/
def rulesFF : Rules := fun c =>
  if c = 'F' then some (Rule.det "FF") else none

/-- createGrammar of the source: select rules and start symbol by name and
run the generator.  On an unrecognised type the source returns
createGrammar applied to the string fractal, which immediately takes the
first branch; that self-call is inlined here. -/
def createGrammar (g : ℕ → ℚ) (iterations iterations2 : ℕ) (type : String) : List Char :=
  if type = "fractal" then run fractalRules g iterations "X"
  else if type = "sympodial" then run sympodialRules g iterations "X"
  else if type = "stochastic" then run stochasticRules g iterations "F"
  else if type = "sierpinski" then run sierpinskiRules g iterations2 "A"
  else run fractalRules g iterations "X"

/-- Bracket weight of a single symbol: push counts one up, pop one down. -/
def bracketDelta (c : Char) : ℤ :=
  if c = '[' then 1 else if c = ']' then -1 else 0

/-- Net bracket count of a symbol sequence. -/
def net (l : List Char) : ℤ :=
  (l.map bracketDelta).sum

/-- Minimum of the net bracket count over all prefixes (the empty prefix
included), hence always nonpositive; a sequence with a pop that has no
matching earlier push is exactly one with a negative minimum. -/
def minPre : List Char → ℤ
  | [] => 0
  | c :: t => min 0 (bracketDelta c + minPre t)

/-- A symbol sequence is bracket balanced when the net count is zero and no
prefix has more pops than pushes. -/
def BalancedStr (l : List Char) : Prop :=
  net l = 0 ∧ minPre l = 0

/-- Goodness of one rule for bracket accounting: every replacement string it
can produce is bracket balanced. -/
def GoodRule : Rule → Prop
  | Rule.det s => net s.toList = 0 ∧ minPre s.toList = 0
  | Rule.stoch alts => ∀ a ∈ alts, net a.res.toList = 0 ∧ minPre a.res.toList = 0

/-- Goodness of a rule set: brackets carry no rules and every replacement is
balanced. -/
def GoodRules (rules : Rules) : Prop :=
  ∀ c r, rules c = some r → bracketDelta c = 0 ∧ GoodRule r

/-- A 3D vector, standing for the three element arrays of the source. -/
@[ext]
structure Vec3 where
  x : ℝ
  y : ℝ
  z : ℝ

/-- Componentwise difference, the sub helper of the source. -/
def sub (v1 v2 : Vec3) : Vec3 :=
  ⟨v1.x - v2.x, v1.y - v2.y, v1.z - v2.z⟩

/-- Componentwise sum, the add helper of the source. -/
def add (v1 v2 : Vec3) : Vec3 :=
  ⟨v1.x + v2.x, v1.y + v2.y, v1.z + v2.z⟩

/-- Scalar multiple, the scaleVec helper of the source. -/
def scaleVec (v : Vec3) (s : ℝ) : Vec3 :=
  ⟨v.x * s, v.y * s, v.z * s⟩

/-- Cross product, the cross helper of the source. -/
def cross (a b : Vec3) : Vec3 :=
  ⟨a.y * b.z - a.z * b.y, a.z * b.x - a.x * b.z, a.x * b.y - a.y * b.x⟩

/-- Dot product of two vectors; the source writes the sum of the products
of components inline wherever it needs a squared length. -/
def dot3 (a b : Vec3) : ℝ :=
  a.x * b.x + a.y * b.y + a.z * b.z

/-- Euclidean length of a vector. -/
noncomputable def norm3 (v : Vec3) : ℝ :=
  Real.sqrt (dot3 v v)

/-- The normalize helper of the source: compute the length and divide by
it, but return the zero vector when the length is exactly zero. -/
noncomputable def normalize (v : Vec3) : Vec3 :=
  let len := Real.sqrt (v.x * v.x + v.y * v.y + v.z * v.z)
  if len = 0 then ⟨0, 0, 0⟩ else ⟨v.x / len, v.y / len, v.z / len⟩

/-- The shared geometry output buffers of the rendering session: flat vertex
positions, flat barycentric coordinates and the triangle index list. -/
structure Geom where
  points : List ℝ
  bary : List ℝ
  indices : List ℕ

/-- The empty geometry buffers, as cleared before a regeneration. -/
def emptyGeom : Geom :=
  ⟨[], [], []⟩

/-- addTriangle of the source: append the nine coordinates of one triangle,
a fixed barycentric pattern, and three consecutive indices starting at the
current vertex count. -/
def addTriangle (x0 y0 z0 x1 y1 z1 x2 y2 z2 : ℝ) (st : Geom) : Geom :=
  let nverts := st.points.length / 3
  { points := st.points ++ [x0, y0, z0, x1, y1, z1, x2, y2, z2]
    bary := st.bary ++ [1, 0, 0, 0, 1, 0, 0, 0, 1]
    indices := st.indices ++ [nverts, nverts + 1, nverts + 2] }

/-- One addTriangle call taking its three corners as vectors. -/
def applyTriangle (st : Geom) (t : Vec3 × Vec3 × Vec3) : Geom :=
  addTriangle t.1.x t.1.y t.1.z t.2.1.x t.2.1.y t.2.1.z t.2.2.x t.2.2.y t.2.2.z st

/-- The orthonormal frame computed at the head of makeBranchSegment: the
normalized axis direction, a right vector from the cross product with an
auxiliary axis (swapped when the direction is near vertical), and an up
vector completing the frame.  Returned as (dir, right, up). -/
noncomputable def branchFrame (p1 p2 : Vec3) : Vec3 × Vec3 × Vec3 :=
  let dir := normalize (sub p2 p1)
  let aux : Vec3 := if 0.9 < |dir.y| then ⟨1, 0, 0⟩ else ⟨0, 1, 0⟩
  let right := normalize (cross dir aux)
  let up := normalize (cross right dir)
  (dir, right, up)

/-- The ring offset at angle t: radius times cosine along right plus radius
times sine along up, exactly the r1 and r2 offsets of the source loop. -/
noncomputable def ringOffset (right up : Vec3) (radius t : ℝ) : Vec3 :=
  add (scaleVec right (Real.cos t * radius)) (scaleVec up (Real.sin t * radius))

/-- The two triangles emitted for radial division i of makeBranchSegment,
listed in the order of the two addTriangle calls of the source:
(v0, v1, v2) then (v1, v3, v2). -/
noncomputable def divisionTris (p1 p2 right up : Vec3) (radius angleStep : ℝ) (i : ℕ) :
    List (Vec3 × Vec3 × Vec3) :=
  let r1 := ringOffset right up radius (i * angleStep)
  let r2 := ringOffset right up radius ((i + 1) * angleStep)
  let v0 := add p1 r1
  let v1 := add p1 r2
  let v2 := add p2 r1
  let v3 := add p2 r2
  [(v0, v1, v2), (v1, v3, v2)]

/-- The full sequence of triangles emitted by makeBranchSegment, two per
radial division. -/
noncomputable def branchTris (p1 p2 : Vec3) (radius : ℝ) (radialDivs : ℕ) :
    List (Vec3 × Vec3 × Vec3) :=
  let f := branchFrame p1 p2
  let angleStep := 2 * Real.pi / radialDivs
  (List.range radialDivs).flatMap (divisionTris p1 p2 f.2.1 f.2.2 radius angleStep)

/-- makeBranchSegment of the source: build the frame and, for each radial
division, append the two triangles of the quad joining the ring at p1 to
the ring at p2 with addTriangle. -/
noncomputable def makeBranchSegment (p1 p2 : Vec3) (radius : ℝ) (radialDivs : ℕ)
    (st : Geom) : Geom :=
  (branchTris p1 p2 radius radialDivs).foldl applyTriangle st

/-- The corner vertices appended by makeBranchSegment, three per triangle in
emission order. -/
noncomputable def branchVerts (p1 p2 : Vec3) (radius : ℝ) (radialDivs : ℕ) : List Vec3 :=
  (branchTris p1 p2 radius radialDivs).flatMap (fun t => [t.1, t.2.1, t.2.2])

/-- Perpendicular distance from a point to the infinite line through a and b:
the length of the component of the offset from a orthogonal to the
normalized line direction. -/
noncomputable def distToLine (a b v : Vec3) : ℝ :=
  let d := normalize (sub b a)
  let w := sub v a
  norm3 (sub w (scaleVec d (dot3 w d)))

/-- Degrees to radians, the radians helper of the source. -/
noncomputable def radiansD (degrees : ℝ) : ℝ :=
  degrees * (Real.pi / 180)

/-- The planar turtle state of drawPlant: position, heading angle in
degrees, the saved state stack, and the line and colour output buffers. -/
structure PlantState where
  x : ℝ
  y : ℝ
  angle : ℝ
  stack : List (ℝ × ℝ × ℝ)
  points : List ℝ
  colors : List ℝ

/-- One symbol of the drawPlant switch.  Draw symbols emit one line segment
at depth 0.25 with a fixed woody colour and advance the turtle; plus and
minus turn; the bracket symbols push and pop the saved state.  A pop on
an empty stack is the fault of the source (reading the fields of an
undefined pop result throws and aborts the interpretation), modelled by
returning none. -/
noncomputable def drawPlantStep (len angleInc : ℝ) (st : PlantState) (cmd : Char) :
    Option PlantState :=
  if cmd = 'F' ∨ cmd = 'X' then
    let rad := radiansD st.angle
    let nextX := st.x + len * Real.cos rad
    let nextY := st.y + len * Real.sin rad
    some { st with
      x := nextX
      y := nextY
      points := st.points ++ [st.x, st.y, 0.25, nextX, nextY, 0.25]
      colors := st.colors ++ [0.55, 0.27, 0.07, 0.55, 0.27, 0.07] }
  else if cmd = '+' then some { st with angle := st.angle + angleInc }
  else if cmd = '-' then some { st with angle := st.angle - angleInc }
  else if cmd = '[' then some { st with stack := (st.x, st.y, st.angle) :: st.stack }
  else if cmd = ']' then
    match st.stack with
    | [] => none
    | s :: rest => some { st with x := s.1, y := s.2.1, angle := s.2.2, stack := rest }
  else some st

/-- Interpret a symbol sequence from an arbitrary turtle state, stopping at
the first fault. -/
noncomputable def drawPlantFrom (len angleInc : ℝ) (st : PlantState) (cmds : List Char) :
    Option PlantState :=
  cmds.foldlM (drawPlantStep len angleInc)  st

/-- The initial turtle state of drawPlant: origin near the bottom, pointing
up, empty stack, fresh buffers. -/
def drawPlantInit : PlantState :=
  ⟨0, -0.8, 90, [], [], []⟩

/-- drawPlant of the source: interpret the whole symbol sequence starting
from the fixed initial state. -/
noncomputable def drawPlant (len angleInc : ℝ) (cmds : List Char) : Option PlantState :=
  drawPlantFrom len angleInc drawPlantInit cmds

/-- Rotation of a vector about the Z axis by an angle in degrees, the
rotateZ helper inside makeStochasticTree. -/
noncomputable def rotateZ (v : Vec3) (ang : ℝ) : Vec3 :=
  let rad := radiansD ang
  let c := Real.cos rad
  let s := Real.sin rad
  ⟨v.x * c - v.y * s, v.x * s + v.y * c, v.z⟩

/-- Rotation about the X axis, the rotateX helper inside makeStochasticTree. -/
noncomputable def rotateX (v : Vec3) (ang : ℝ) : Vec3 :=
  let rad := radiansD ang
  let c := Real.cos rad
  let s := Real.sin rad
  ⟨v.x, v.y * c - v.z * s, v.y * s + v.z * c⟩

/-- Rotation about the Y axis, the rotateY helper inside makeStochasticTree. -/
noncomputable def rotateY (v : Vec3) (ang : ℝ) : Vec3 :=
  let rad := radiansD ang
  let c := Real.cos rad
  let s := Real.sin rad
  ⟨v.x * c + v.z * s, v.y, -v.x * s + v.z * c⟩

/-- The 3D turtle state of makeStochasticTree: position, the three rotation
accumulators, current step length and branch radius, the saved state
stack (position and accumulators only), and the geometry buffers. -/
structure TreeState where
  x : ℝ
  y : ℝ
  z : ℝ
  angleX : ℝ
  angleY : ℝ
  angleZ : ℝ
  step : ℝ
  radius : ℝ
  stack : List (ℝ × ℝ × ℝ × ℝ × ℝ × ℝ)
  geom : Geom

/-- One symbol of the makeStochasticTree switch.  The forward direction is
recomputed each step from the canonical up vector by the three
accumulated rotations.  F emits one cylinder segment and advances; the
four rotation symbols adjust one accumulator; the open bracket pushes
position and accumulators and then multiplies step by 0.9 and radius by
0.8; the close bracket pops and divides by the same constants.  A pop on
an empty stack is the fault of the source (reading the fields of an
undefined pop result throws and aborts), modelled by returning none. -/
noncomputable def treeStep (subdivisions : ℕ) (angleToUse : ℝ) (st : TreeState)
    (cmd : Char) : Option TreeState :=
  let dir := rotateY (rotateX (rotateZ ⟨0, 1, 0⟩ st.angleZ) st.angleX) st.angleY
  if cmd = 'F' then
    let endX := st.x + dir.x * st.step
    let endY := st.y + dir.y * st.step
    let endZ := st.z + dir.z * st.step
    some { st with
      x := endX
      y := endY
      z := endZ
      geom := makeBranchSegment ⟨st.x, st.y, st.z⟩ ⟨endX, endY, endZ⟩ st.radius
        subdivisions st.geom }
  else if cmd = '+' then some { st with angleZ := st.angleZ + angleToUse }
  else if cmd = '-' then some { st with angleZ := st.angleZ - angleToUse }
  else if cmd = '&' then some { st with angleX := st.angleX + angleToUse }
  else if cmd = '^' then some { st with angleX := st.angleX - angleToUse }
  else if cmd = '[' then
    some { st with
      stack := (st.x, st.y, st.z, st.angleX, st.angleY, st.angleZ) :: st.stack
      step := st.step * 0.9
      radius := st.radius * 0.8 }
  else if cmd = ']' then
    match st.stack with
    | [] => none
    | s :: rest =>
      some { st with
        x := s.1
        y := s.2.1
        z := s.2.2.1
        angleX := s.2.2.2.1
        angleY := s.2.2.2.2.1
        angleZ := s.2.2.2.2.2
        stack := rest
        step := st.step / 0.9
        radius := st.radius / 0.8 }
  else some st

/-- Interpret a symbol sequence of the 3D turtle from an arbitrary state,
stopping at the first fault. -/
noncomputable def treeRunFrom (subdivisions : ℕ) (angleToUse : ℝ) (st : TreeState)
    (cmds : List Char) : Option TreeState :=
  cmds.foldlM (treeStep subdivisions angleToUse) st

/-- The initial state of makeStochasticTree: start slightly lower, pointing
up, step 0.2 and radius 0.03, empty stack. -/
def treeInit : TreeState :=
  ⟨0, -1, 0, 0, 0, 0, 0.2, 0.03, [], emptyGeom⟩

/-- The turtle interpretation pass of makeStochasticTree over an already
generated grammar string. -/
noncomputable def makeStochasticTree (subdivisions : ℕ) (angleToUse : ℝ)
    (grammar : List Char) : Option TreeState :=
  treeRunFrom subdivisions angleToUse treeInit grammar

/-- The buffer invariant maintained by addTriangle: the barycentric buffer
stays parallel to the vertex buffer and the index list is the identity
enumeration of the vertices. -/
def GeomInv (st : Geom) : Prop :=
  st.points.length = st.bary.length ∧
  3 * st.indices.length = st.points.length ∧
  st.indices = List.range st.indices.length

/- ------------------------------------------------------------------ -/
/- Theorems.                                                           -/
/- ------------------------------------------------------------------ -/

lemma cumProb_zero (alts : List Alt) : cumProb alts 0 = 0 := rfl

lemma cumProb_cons (a : Alt) (rest : List Alt) (k : ℕ) :
    cumProb (a :: rest) (k + 1) = a.prob + cumProb rest k := by
  simp [cumProb]

lemma selectLoop_eq_none (alts : List Alt) (rand : ℚ) :
    ∀ c : ℚ, (∀ k, k < alts.length → ¬ rand ≤ c + cumProb alts (k + 1)) →
    selectLoop alts rand c = none := by
  induction alts with
  | nil => intro c _; rfl
  | cons a rest ih =>
    intro c h
    have h0 := h 0 (by simp)
    rw [cumProb_cons, cumProb_zero, add_zero] at h0
    rw [selectLoop, if_neg h0]
    apply ih
    intro k hk
    have hk1 := h (k + 1) (by simpa using Nat.succ_lt_succ hk)
    rw [cumProb_cons] at hk1
    rwa [← add_assoc] at hk1

lemma selectLoop_eq_some (alts : List Alt) (rand : ℚ) :
    ∀ (c : ℚ) (k : ℕ) (hk : k < alts.length),
      rand ≤ c + cumProb alts (k + 1) →
      (∀ j, j < k → ¬ rand ≤ c + cumProb alts (j + 1)) →
      selectLoop alts rand c = some (alts.get ⟨k, hk⟩).res := by
  induction alts with
  | nil => intro c k hk; exact absurd hk (by simp)
  | cons a rest ih =>
    intro c k hk hq hmin
    cases k with
    | zero =>
      rw [cumProb_cons, cumProb_zero, add_zero] at hq
      rw [selectLoop]
      simp [hq]
    | succ j =>
      have h0 := hmin 0 (Nat.succ_pos j)
      rw [cumProb_cons, cumProb_zero, add_zero] at h0
      rw [selectLoop, if_neg h0]
      have hj : j < rest.length := by simpa using Nat.lt_of_succ_lt_succ hk
      have hq' : rand ≤ (c + a.prob) + cumProb rest (j + 1) := by
        rw [cumProb_cons] at hq; rwa [← add_assoc] at hq
      have hmin' : ∀ i, i < j → ¬ rand ≤ (c + a.prob) + cumProb rest (i + 1) := by
        intro i hi
        have := hmin (i + 1) (Nat.succ_lt_succ hi)
        rw [cumProb_cons] at this
        rwa [← add_assoc] at this
      rw [ih (c + a.prob) j hj hq' hmin']
      rfl

lemma selectLoop_mem (alts : List Alt) (rand : ℚ) :
    ∀ (c : ℚ) (s : String), selectLoop alts rand c = some s → s ∈ alts.map Alt.res := by
  induction alts with
  | nil => intro c s h; exact absurd h (by simp [selectLoop])
  | cons a rest ih =>
    intro c s h
    rw [selectLoop] at h
    by_cases hle : rand ≤ c + a.prob
    · rw [if_pos hle] at h
      simp at h
      simp [h]
    · rw [if_neg hle] at h
      simpa using Or.inr (ih (c + a.prob) s h)

lemma selectStoch_mem (alts : List Alt) (rand : ℚ) (hne : alts ≠ []) :
    selectStoch alts rand ∈ alts.map Alt.res := by
  rw [selectStoch]
  cases hsl : selectLoop alts rand 0 with
  | some s =>
    simpa using selectLoop_mem alts rand 0 s hsl
  | none =>
    rw [List.getLast?_eq_getLast alts hne]
    simpa using List.mem_map_of_mem Alt.res (List.getLast_mem hne)

/-- Claim C1: for a non-empty stochastic rule and any drawn value, one
rewriting step selects exactly one alternative: the first in declared
order whose cumulative probability is at least the draw, or the last
alternative when no cumulative sum reaches the draw; in particular the
selection is always one of the listed alternatives, with no assumption
that the probabilities sum to one. -/
theorem stochastic_selection_total (alts : List Alt) (rand : ℚ) (hne : alts ≠ []) :
    selectStoch alts rand ∈ alts.map Alt.res ∧
    (∀ (k : ℕ) (hk : k < alts.length), rand ≤ cumProb alts (k + 1) →
      (∀ j, j < k → ¬ rand ≤ cumProb alts (j + 1)) →
      selectStoch alts rand = (alts.get ⟨k, hk⟩).res) ∧
    ((∀ k, k < alts.length → ¬ rand ≤ cumProb alts (k + 1)) →
      selectStoch alts rand = (alts.getLast hne).res) := by
  refine ⟨selectStoch_mem alts rand hne, ?_, ?_⟩
  · intro k hk hq hmin
    have hq' : rand ≤ 0 + cumProb alts (k + 1) := by rwa [zero_add]
    have hmin' : ∀ j, j < k → ¬ rand ≤ 0 + cumProb alts (j + 1) := by
      intro j hj; rw [zero_add]; exact hmin j hj
    rw [selectStoch, selectLoop_eq_some alts rand 0 k hk hq' hmin']
    rfl
  · intro hnone
    have hnone' : ∀ k, k < alts.length → ¬ rand ≤ 0 + cumProb alts (k + 1) := by
      intro k hk; rw [zero_add]; exact hnone k hk
    rw [selectStoch, selectLoop_eq_none alts rand 0 hnone']
    rw [List.getLast?_eq_getLast alts hne]
    rfl

/-- Witness for claim C1 at a concrete two-alternative rule and draw. -/
theorem stochastic_selection_total_witness :
    selectStoch [⟨1/2, "AB"⟩, ⟨1/2, "CD"⟩] (1/4)
      ∈ ([⟨1/2, "AB"⟩, ⟨1/2, "CD"⟩] : List Alt).map Alt.res :=
  (stochastic_selection_total [⟨1/2, "AB"⟩, ⟨1/2, "CD"⟩] (1/4) (by decide)).1

/-- Claim C3: rewriting with an iteration count of zero returns the start
string split into its symbols, unchanged, for every rule set, draw
supply and start string. -/
theorem run_zero_id (rules : Rules) (g : ℕ → ℚ) (startString : String) :
    run rules g 0 startString = startString.toList := rfl

lemma rewriteOnce_replicateF (g : ℕ → ℚ) (m idx : ℕ) :
    rewriteOnce rulesFF g (List.replicate m 'F') idx = (List.replicate (2 * m) 'F', idx) := by
  induction m generalizing idx with
  | zero => rfl
  | succ k ih =>
    rw [List.replicate_succ]
    have hF : rulesFF 'F' = some (Rule.det "FF") := rfl
    simp only [rewriteOnce, hF]
    rw [ih]
    have hFF : ("FF".toList : List Char) = ['F', 'F'] := rfl
    rw [hFF]
    have h2 : 2 * (k + 1) = 2 * k + 1 + 1 := by ring
    rw [h2, List.replicate_succ, List.replicate_succ]
    rfl

lemma runFrom_replicateF (g : ℕ → ℚ) (n : ℕ) :
    ∀ (m idx : ℕ), runFrom rulesFF g n (List.replicate m 'F') idx
      = List.replicate (2 ^ n * m) 'F' := by
  induction n with
  | zero => intro m idx; simp [runFrom]
  | succ k ih =>
    intro m idx
    rw [runFrom]
    simp only [rewriteOnce_replicateF]
    rw [ih]
    congr 1
    ring

/-- Claim C2: for the grammar whose only rule replaces F by FF, rewriting
the axiom F for n iterations yields a symbol sequence of length exactly
two to the n, for every draw supply. -/
theorem run_FF_length (g : ℕ → ℚ) (n : ℕ) :
    (run rulesFF g n "F").length = 2 ^ n := by
  have h : ("F".toList : List Char) = List.replicate 1 'F' := rfl
  rw [run, h, runFrom_replicateF]
  simp

/-- Claim C10: normalize is total and maps the zero vector to the zero
vector, since the division by the length is guarded by a zero check. -/
theorem normalize_zero_vec : normalize ⟨0, 0, 0⟩ = ⟨0, 0, 0⟩ := by
  simp [normalize]

/-- Counterexample for claim C7: at the concrete unrecognised selector
bogus, createGrammar returns exactly the fractal generation instead of
reporting a configuration error, so the fallback is silent. -/
theorem createGrammar_unknown_concrete :
    createGrammar (fun _ => 0) 4 4 "bogus" = createGrammar (fun _ => 0) 4 4 "fractal" := rfl

/-- Amended claim C7: for every selector that is none of the four
recognised grammar names, createGrammar silently falls back to the
default and returns the same generation as the fractal selector. -/
theorem createGrammar_unknown_default (g : ℕ → ℚ) (its its2 : ℕ) (type : String)
    (h1 : type ≠ "fractal") (h2 : type ≠ "sympodial")
    (h3 : type ≠ "stochastic") (h4 : type ≠ "sierpinski") :
    createGrammar g its its2 type = createGrammar g its its2 "fractal" := by
  simp [createGrammar, h1, h2, h3, h4]

/-- Witness for the amended claim C7 at the concrete selector coral. -/
theorem createGrammar_unknown_default_witness :
    createGrammar (fun _ => 0) 1 1 "coral" = createGrammar (fun _ => 0) 1 1 "fractal" :=
  createGrammar_unknown_default (fun _ => 0) 1 1 "coral"
    (by decide) (by decide) (by decide) (by decide)

/-- Claim C5: in the 3D turtle, an open bracket immediately followed by a
close bracket is the identity on the whole turtle state: the push saves
position and the three accumulators and scales step by 0.9 and radius by
0.8, and the pop restores the saved values and divides by the identical
constants, for every subdivision count, angle increment and state. -/
theorem tree_bracket_roundtrip (subdivisions : ℕ) (angleToUse : ℝ) (st : TreeState) :
    treeRunFrom subdivisions angleToUse st ['[', ']'] = some st := by
  have h9 : st.step * (0.9 : ℝ) / 0.9 = st.step :=
    mul_div_cancel_right₀ _ (by norm_num)
  have h8 : st.radius * (0.8 : ℝ) / 0.8 = st.radius :=
    mul_div_cancel_right₀ _ (by norm_num)
  simp [treeRunFrom, treeStep, h9, h8]

lemma applyTriangle_points (st : Geom) (t : Vec3 × Vec3 × Vec3) :
    (applyTriangle st t).points = st.points ++ [t.1.x, t.1.y, t.1.z,
      t.2.1.x, t.2.1.y, t.2.1.z, t.2.2.x, t.2.2.y, t.2.2.z] := rfl

lemma applyTriangle_bary (st : Geom) (t : Vec3 × Vec3 × Vec3) :
    (applyTriangle st t).bary = st.bary ++ [1, 0, 0, 0, 1, 0, 0, 0, 1] := rfl

lemma applyTriangle_indices (st : Geom) (t : Vec3 × Vec3 × Vec3) :
    (applyTriangle st t).indices = st.indices ++ [st.points.length / 3,
      st.points.length / 3 + 1, st.points.length / 3 + 2] := rfl

lemma range_append_three (n : ℕ) :
    List.range n ++ [n, n + 1, n + 2] = List.range (n + 3) := by
  rw [show n + 3 = (n + 2) + 1 by ring, List.range_succ,
    show n + 2 = (n + 1) + 1 by ring, List.range_succ, List.range_succ]
  simp

lemma applyTriangle_inv (st : Geom) (t : Vec3 × Vec3 × Vec3) (h : GeomInv st) :
    GeomInv (applyTriangle st t) := by
  obtain ⟨h1, h2, h3⟩ := h
  have hplen : (applyTriangle st t).points.length = st.points.length + 9 := by
    rw [applyTriangle_points]; simp
  have hblen : (applyTriangle st t).bary.length = st.bary.length + 9 := by
    rw [applyTriangle_bary]; simp
  have hilen : (applyTriangle st t).indices.length = st.indices.length + 3 := by
    rw [applyTriangle_indices]; simp
  have hq : st.points.length / 3 = st.indices.length := by omega
  refine ⟨by omega, by omega, ?_⟩
  rw [hilen, applyTriangle_indices, hq, ← range_append_three]
  exact congrArg (· ++ [st.indices.length, st.indices.length + 1, st.indices.length + 2]) h3

lemma foldl_applyTriangle_inv (calls : List (Vec3 × Vec3 × Vec3)) :
    ∀ st : Geom, GeomInv st → GeomInv (calls.foldl applyTriangle st) := by
  induction calls with
  | nil => intro st h; exact h
  | cons t rest ih =>
    intro st h
    exact ih _ (applyTriangle_inv st t h)

/-- Claim C9: after any sequence of addTriangle calls starting from empty
buffers, the vertex and barycentric buffers have equal length, the index
list has one entry per emitted vertex (a third of the flat coordinate
count), and the index list is the identity enumeration, so every index
references an existing vertex. -/
theorem addTriangle_invariant (calls : List (Vec3 × Vec3 × Vec3)) :
    (calls.foldl applyTriangle emptyGeom).points.length
      = (calls.foldl applyTriangle emptyGeom).bary.length ∧
    (calls.foldl applyTriangle emptyGeom).indices.length
      = (calls.foldl applyTriangle emptyGeom).points.length / 3 ∧
    (calls.foldl applyTriangle emptyGeom).indices
      = List.range (calls.foldl applyTriangle emptyGeom).indices.length := by
  have h0 : GeomInv emptyGeom := by
    refine ⟨rfl, rfl, rfl⟩
  obtain ⟨h1, h2, h3⟩ := foldl_applyTriangle_inv calls emptyGeom h0
  exact ⟨h1, by omega, h3⟩

lemma minPre_nonpos : ∀ l : List Char, minPre l ≤ 0
  | [] => le_refl 0
  | _ :: _ => min_le_left 0 _

lemma drawPlantFrom_cons (len inc : ℝ) (st : PlantState) (c : Char) (t : List Char) :
    drawPlantFrom len inc st (c :: t)
      = (drawPlantStep len inc st c).bind (fun s => drawPlantFrom len inc s t) := rfl

lemma drawPlantFrom_isSome_iff (len inc : ℝ) :
    ∀ (cmds : List Char) (st : PlantState),
      (drawPlantFrom len inc st cmds).isSome = true
        ↔ 0 ≤ (st.stack.length : ℤ) + minPre cmds := by
  intro cmds
  induction cmds with
  | nil =>
    intro st
    simp [drawPlantFrom, minPre, List.foldlM]
  | cons c t ih =>
    intro st
    have hnp := minPre_nonpos t
    rw [drawPlantFrom_cons]
    by_cases hFX : c = 'F' ∨ c = 'X'
    · have hd : bracketDelta c = 0 := by
        rcases hFX with h | h <;> subst h <;> rfl
      simp only [drawPlantStep, if_pos hFX, Option.some_bind]
      rw [ih]
      simp only [minPre, hd]
      omega
    · have hF : ¬ c = 'F' := fun h => hFX (Or.inl h)
      have hX : ¬ c = 'X' := fun h => hFX (Or.inr h)
      by_cases hp : c = '+'
      · have hd : bracketDelta c = 0 := by subst hp; rfl
        simp only [drawPlantStep, if_neg hFX, if_pos hp, Option.some_bind]
        rw [ih]
        simp only [minPre, hd]
        omega
      · by_cases hm : c = '-'
        · have hd : bracketDelta c = 0 := by subst hm; rfl
          simp only [drawPlantStep, if_neg hFX, if_neg hp, if_pos hm, Option.some_bind]
          rw [ih]
          simp only [minPre, hd]
          omega
        · by_cases hob : c = '['
          · have hd : bracketDelta c = 1 := by subst hob; rfl
            simp only [drawPlantStep, if_neg hFX, if_neg hp, if_neg hm, if_pos hob,
              Option.some_bind]
            rw [ih]
            simp only [minPre, hd, List.length_cons]
            push_cast
            omega
          · by_cases hcb : c = ']'
            · have hd : bracketDelta c = -1 := by subst hcb; rfl
              rcases hs : st.stack with _ | ⟨s, rest⟩
              · simp only [drawPlantStep, if_neg hFX, if_neg hp, if_neg hm, if_neg hob,
                  if_pos hcb, hs, Option.none_bind]
                simp only [minPre, hd, hs, List.length_nil]
                constructor
                · intro h; exact absurd h (by simp)
                · intro h; omega
              · simp only [drawPlantStep, if_neg hFX, if_neg hp, if_neg hm, if_neg hob,
                  if_pos hcb, hs, Option.some_bind]
                rw [ih]
                simp only [minPre, hd, hs, List.length_cons]
                push_cast
                omega
            · have hd : bracketDelta c = 0 := by
                simp [bracketDelta, hob, hcb]
              simp only [drawPlantStep, if_neg hFX, if_neg hp, if_neg hm, if_neg hob,
                if_neg hcb, Option.some_bind]
              rw [ih]
              simp only [minPre, hd]
              omega

/-- Claim C6: planar turtle interpretation from the standard initial state
fails, returning no final state, exactly when some prefix of the symbol
sequence has more pops than pushes; in particular a close bracket with no
matching earlier open bracket always aborts the generation and the
interpreter never silently continues past it. -/
theorem drawPlant_none_iff (len inc : ℝ) (cmds : List Char) :
    drawPlant len inc cmds = none ↔ minPre cmds < 0 := by
  have h := drawPlantFrom_isSome_iff len inc cmds drawPlantInit
  have hstack : (drawPlantInit.stack.length : ℤ) = 0 := rfl
  rw [hstack] at h
  rw [drawPlant]
  constructor
  · intro hnone
    by_contra hge
    push_neg at hge
    have : (drawPlantFrom len inc drawPlantInit cmds).isSome = true := h.mpr (by omega)
    rw [hnone] at this
    exact absurd this (by simp)
  · intro hlt
    cases hv : drawPlantFrom len inc drawPlantInit cmds with
    | none => rfl
    | some v =>
      have : (0 : ℤ) ≤ 0 + minPre cmds := h.mp (by rw [hv]; rfl)
      omega

lemma net_nil : net [] = 0 := rfl

lemma net_cons (c : Char) (t : List Char) : net (c :: t) = bracketDelta c + net t := by
  simp [net]

lemma net_append (s t : List Char) : net (s ++ t) = net s + net t := by
  simp [net]

lemma minPre_cons (c : Char) (t : List Char) :
    minPre (c :: t) = min 0 (bracketDelta c + minPre t) := rfl

lemma minPre_append (s t : List Char) :
    minPre (s ++ t) = min (minPre s) (net s + minPre t) := by
  induction s with
  | nil =>
    have := minPre_nonpos t
    simp [minPre, net_nil]
    omega
  | cons c s ih =>
    simp only [List.cons_append, minPre_cons, ih, net_cons]
    omega

lemma selectStoch_nil (rand : ℚ) : selectStoch [] rand = "" := rfl

lemma selectStoch_balanced (alts : List Alt) (rand : ℚ)
    (h : ∀ a ∈ alts, net a.res.toList = 0 ∧ minPre a.res.toList = 0) :
    net (selectStoch alts rand).toList = 0 ∧ minPre (selectStoch alts rand).toList = 0 := by
  rcases alts with _ | ⟨a, rest⟩
  · rw [selectStoch_nil]
    exact ⟨rfl, rfl⟩
  · have hmem := selectStoch_mem (a :: rest) rand (by simp)
    rw [List.mem_map] at hmem
    obtain ⟨b, hb, hres⟩ := hmem
    rw [← hres]
    exact h b hb

lemma rewriteOnce_preserves (rules : Rules) (hg : GoodRules rules) (g : ℕ → ℚ) :
    ∀ (l : List Char) (idx : ℕ),
      net (rewriteOnce rules g l idx).1 = net l ∧
      minPre l ≤ minPre (rewriteOnce rules g l idx).1 := by
  intro l
  induction l with
  | nil => intro idx; exact ⟨rfl, le_refl 0⟩
  | cons c t ih =>
    intro idx
    cases hr : rules c with
    | none =>
      simp only [rewriteOnce, hr]
      obtain ⟨ihn, ihm⟩ := ih idx
      constructor
      · rw [net_cons, net_cons, ihn]
      · rw [minPre_cons, minPre_cons]
        omega
    | some r =>
      obtain ⟨hdc, hgr⟩ := hg c r hr
      cases r with
      | det s =>
        simp only [rewriteOnce, hr]
        obtain ⟨ihn, ihm⟩ := ih idx
        obtain ⟨hsn, hsm⟩ := hgr
        constructor
        · rw [net_append, hsn, ihn, net_cons, hdc]
        · rw [minPre_append, hsn, hsm, minPre_cons, hdc]
          omega
      | stoch alts =>
        simp only [rewriteOnce, hr]
        obtain ⟨ihn, ihm⟩ := ih (idx + 1)
        obtain ⟨hsn, hsm⟩ := selectStoch_balanced alts (g idx) hgr
        constructor
        · rw [net_append, hsn, ihn, net_cons, hdc]
        · rw [minPre_append, hsn, hsm, minPre_cons, hdc]
          omega

lemma runFrom_balanced (rules : Rules) (hg : GoodRules rules) (g : ℕ → ℚ) :
    ∀ (n : ℕ) (l : List Char) (idx : ℕ), net l = 0 → minPre l = 0 →
      net (runFrom rules g n l idx) = 0 ∧ minPre (runFrom rules g n l idx) = 0 := by
  intro n
  induction n with
  | zero => intro l idx h1 h2; exact ⟨h1, h2⟩
  | succ k ih =>
    intro l idx h1 h2
    rw [runFrom]
    obtain ⟨hn, hm⟩ := rewriteOnce_preserves rules hg g l idx
    apply ih
    · rw [hn, h1]
    · have := minPre_nonpos (rewriteOnce rules g l idx).1
      omega

lemma run_balanced_general (rules : Rules) (hg : GoodRules rules)
    (startString : String) (hax : BalancedStr startString.toList) (g : ℕ → ℚ) (n : ℕ) :
    BalancedStr (run rules g n startString) ∧
    ∀ len inc, (drawPlant len inc (run rules g n startString)).isSome = true := by
  obtain ⟨h1, h2⟩ := runFrom_balanced rules hg g n startString.toList 0 hax.1 hax.2
  refine ⟨⟨h1, h2⟩, ?_⟩
  intro len inc
  have h3 : minPre (run rules g n startString) = 0 := h2
  rw [drawPlant, drawPlantFrom_isSome_iff, h3]
  simp

lemma goodRules_fractal : GoodRules fractalRules := by
  intro c r h
  rw [fractalRules] at h
  by_cases hX : c = 'X'
  · rw [if_pos hX] at h
    subst hX
    cases h
    exact ⟨rfl, by unfold GoodRule; decide⟩
  · rw [if_neg hX] at h
    by_cases hF : c = 'F'
    · rw [if_pos hF] at h
      subst hF
      cases h
      exact ⟨rfl, by unfold GoodRule; decide⟩
    · rw [if_neg hF] at h
      exact absurd h (by simp)

lemma goodRules_sympodial : GoodRules sympodialRules := by
  intro c r h
  rw [sympodialRules] at h
  by_cases hX : c = 'X'
  · rw [if_pos hX] at h
    subst hX
    cases h
    exact ⟨rfl, by unfold GoodRule; decide⟩
  · rw [if_neg hX] at h
    by_cases hF : c = 'F'
    · rw [if_pos hF] at h
      subst hF
      cases h
      exact ⟨rfl, by unfold GoodRule; decide⟩
    · rw [if_neg hF] at h
      exact absurd h (by simp)

lemma goodRules_stochastic : GoodRules stochasticRules := by
  intro c r h
  rw [stochasticRules] at h
  by_cases hF : c = 'F'
  · rw [if_pos hF] at h
    subst hF
    cases h
    exact ⟨rfl, by unfold GoodRule; decide⟩
  · rw [if_neg hF] at h
    exact absurd h (by simp)

lemma goodRules_sierpinski : GoodRules sierpinskiRules := by
  intro c r h
  rw [sierpinskiRules] at h
  by_cases hA : c = 'A'
  · rw [if_pos hA] at h
    subst hA
    cases h
    exact ⟨rfl, by unfold GoodRule; decide⟩
  · rw [if_neg hA] at h
    by_cases hB : c = 'B'
    · rw [if_pos hB] at h
      subst hB
      cases h
      exact ⟨rfl, by unfold GoodRule; decide⟩
    · rw [if_neg hB] at h
      exact absurd h (by simp)

/-- Claim C8: for each of the four grammar variants of createGrammar, the
axiom and every rule replacement string are bracket balanced with no
prefix having more pops than pushes; consequently every sequence produced
by run at any iteration depth is bracket balanced, and the planar turtle
interpretation of such a sequence always succeeds, so the empty-stack pop
in the close-bracket case of drawPlant is unreachable for these
grammars. -/
theorem grammars_bracket_safe :
    (GoodRules fractalRules ∧ BalancedStr ("X".toList) ∧
      ∀ (g : ℕ → ℚ) (n : ℕ), BalancedStr (run fractalRules g n "X") ∧
        ∀ len inc, (drawPlant len inc (run fractalRules g n "X")).isSome = true) ∧
    (GoodRules sympodialRules ∧ BalancedStr ("X".toList) ∧
      ∀ (g : ℕ → ℚ) (n : ℕ), BalancedStr (run sympodialRules g n "X") ∧
        ∀ len inc, (drawPlant len inc (run sympodialRules g n "X")).isSome = true) ∧
    (GoodRules stochasticRules ∧ BalancedStr ("F".toList) ∧
      ∀ (g : ℕ → ℚ) (n : ℕ), BalancedStr (run stochasticRules g n "F") ∧
        ∀ len inc, (drawPlant len inc (run stochasticRules g n "F")).isSome = true) ∧
    (GoodRules sierpinskiRules ∧ BalancedStr ("A".toList) ∧
      ∀ (g : ℕ → ℚ) (n : ℕ), BalancedStr (run sierpinskiRules g n "A") ∧
        ∀ len inc, (drawPlant len inc (run sierpinskiRules g n "A")).isSome = true) := by
  have hX : BalancedStr ("X".toList) := by constructor <;> decide
  have hF : BalancedStr ("F".toList) := by constructor <;> decide
  have hA : BalancedStr ("A".toList) := by constructor <;> decide
  exact ⟨⟨goodRules_fractal, hX, run_balanced_general _ goodRules_fractal _ hX⟩,
    ⟨goodRules_sympodial, hX, run_balanced_general _ goodRules_sympodial _ hX⟩,
    ⟨goodRules_stochastic, hF, run_balanced_general _ goodRules_stochastic _ hF⟩,
    ⟨goodRules_sierpinski, hA, run_balanced_general _ goodRules_sierpinski _ hA⟩⟩

lemma dot3_comm (a b : Vec3) : dot3 a b = dot3 b a := by
  simp only [dot3]; ring

lemma dot3_cross_left (a b : Vec3) : dot3 (cross a b) a = 0 := by
  simp only [dot3, cross]; ring

lemma dot3_cross_right (a b : Vec3) : dot3 (cross a b) b = 0 := by
  simp only [dot3, cross]; ring

lemma dot3_cross_sq (a b : Vec3) :
    dot3 (cross a b) (cross a b) = dot3 a a * dot3 b b - dot3 a b * dot3 a b := by
  simp only [dot3, cross]; ring

lemma dot3_self_nonneg (v : Vec3) : 0 ≤ dot3 v v := by
  simp only [dot3]
  nlinarith [mul_self_nonneg v.x, mul_self_nonneg v.y, mul_self_nonneg v.z]

lemma dot3_self_pos (v : Vec3) (h : v ≠ ⟨0, 0, 0⟩) : 0 < dot3 v v := by
  rcases lt_or_eq_of_le (dot3_self_nonneg v) with hlt | heq
  · exact hlt
  · exfalso
    apply h
    simp only [dot3] at heq
    have h1 : v.x * v.x = 0 := by
      linarith [mul_self_nonneg v.x, mul_self_nonneg v.y, mul_self_nonneg v.z]
    have h2 : v.y * v.y = 0 := by
      linarith [mul_self_nonneg v.x, mul_self_nonneg v.y, mul_self_nonneg v.z]
    have h3 : v.z * v.z = 0 := by
      linarith [mul_self_nonneg v.x, mul_self_nonneg v.y, mul_self_nonneg v.z]
    exact Vec3.ext (mul_self_eq_zero.mp h1) (mul_self_eq_zero.mp h2) (mul_self_eq_zero.mp h3)

lemma subV_ne_zero (p1 p2 : Vec3) (h : p1 ≠ p2) : sub p2 p1 ≠ ⟨0, 0, 0⟩ := by
  intro hs
  apply h
  have hx : p2.x - p1.x = 0 := congrArg Vec3.x hs
  have hy : p2.y - p1.y = 0 := congrArg Vec3.y hs
  have hz : p2.z - p1.z = 0 := congrArg Vec3.z hs
  exact Vec3.ext (by linarith) (by linarith) (by linarith)

lemma normalize_eq (v : Vec3) :
    normalize v = if Real.sqrt (dot3 v v) = 0 then ⟨0, 0, 0⟩
      else scaleVec v (Real.sqrt (dot3 v v))⁻¹ := by
  simp only [normalize, scaleVec, dot3, div_eq_mul_inv]

lemma dot3_scaleVec_left (v w : Vec3) (s : ℝ) : dot3 (scaleVec v s) w = s * dot3 v w := by
  simp only [dot3, scaleVec]; ring

lemma dot3_scaleVec_right (v w : Vec3) (s : ℝ) : dot3 v (scaleVec w s) = s * dot3 v w := by
  simp only [dot3, scaleVec]; ring

lemma dot3_add_left (a b w : Vec3) : dot3 (add a b) w = dot3 a w + dot3 b w := by
  simp only [dot3, add]; ring

lemma dot3_normalize_self (v : Vec3) (h : 0 < dot3 v v) :
    dot3 (normalize v) (normalize v) = 1 := by
  have hL : Real.sqrt (dot3 v v) ≠ 0 := ne_of_gt (Real.sqrt_pos.mpr h)
  have hq : Real.sqrt (dot3 v v) * Real.sqrt (dot3 v v) = dot3 v v :=
    Real.mul_self_sqrt h.le
  rw [normalize_eq, if_neg hL, dot3_scaleVec_left, dot3_scaleVec_right]
  field_simp

lemma dot3_normalize_zero (v w : Vec3) (h : dot3 v w = 0) : dot3 (normalize v) w = 0 := by
  rw [normalize_eq]
  split_ifs with hL
  · simp [dot3]
  · rw [dot3_scaleVec_left, h, mul_zero]

lemma branchFrame_spec (p1 p2 : Vec3) (h : p1 ≠ p2) :
    dot3 (branchFrame p1 p2).1 (branchFrame p1 p2).1 = 1 ∧
    dot3 (branchFrame p1 p2).2.1 (branchFrame p1 p2).2.1 = 1 ∧
    dot3 (branchFrame p1 p2).2.2 (branchFrame p1 p2).2.2 = 1 ∧
    dot3 (branchFrame p1 p2).2.1 (branchFrame p1 p2).1 = 0 ∧
    dot3 (branchFrame p1 p2).2.2 (branchFrame p1 p2).1 = 0 ∧
    dot3 (branchFrame p1 p2).2.2 (branchFrame p1 p2).2.1 = 0 := by
  have hq : 0 < dot3 (sub p2 p1) (sub p2 p1) := dot3_self_pos _ (subV_ne_zero p1 p2 h)
  have e1 : (branchFrame p1 p2).1 = normalize (sub p2 p1) := rfl
  have e2 : (branchFrame p1 p2).2.1
      = normalize (cross (normalize (sub p2 p1))
          (if 0.9 < |(normalize (sub p2 p1)).y| then ⟨1, 0, 0⟩ else ⟨0, 1, 0⟩)) := rfl
  have e3 : (branchFrame p1 p2).2.2
      = normalize (cross
          (normalize (cross (normalize (sub p2 p1))
            (if 0.9 < |(normalize (sub p2 p1)).y| then ⟨1, 0, 0⟩ else ⟨0, 1, 0⟩)))
          (normalize (sub p2 p1))) := rfl
  rw [e1, e2, e3]
  set d := normalize (sub p2 p1) with hd_def
  set aux := (if 0.9 < |d.y| then (⟨1, 0, 0⟩ : Vec3) else ⟨0, 1, 0⟩) with haux_def
  have hdd : dot3 d d = 1 := by rw [hd_def]; exact dot3_normalize_self _ hq
  have hcp : 0 < dot3 (cross d aux) (cross d aux) := by
    by_cases hy : 0.9 < |d.y|
    · have ha : aux = ⟨1, 0, 0⟩ := by rw [haux_def, if_pos hy]
      rw [ha]
      have hyy : 0.81 < d.y * d.y := by
        nlinarith [abs_nonneg d.y, abs_mul_abs_self d.y]
      simp only [dot3, cross]
      nlinarith [mul_self_nonneg d.z]
    · have ha : aux = ⟨0, 1, 0⟩ := by rw [haux_def, if_neg hy]
      push_neg at hy
      rw [ha]
      have hyy : d.y * d.y ≤ 0.81 := by
        nlinarith [abs_nonneg d.y, abs_mul_abs_self d.y]
      have hdd' : d.x * d.x + d.y * d.y + d.z * d.z = 1 := hdd
      simp only [dot3, cross]
      nlinarith
  set r := normalize (cross d aux) with hr_def
  have hrr : dot3 r r = 1 := by rw [hr_def]; exact dot3_normalize_self _ hcp
  have hrd : dot3 r d = 0 := by rw [hr_def]; exact dot3_normalize_zero _ _ (dot3_cross_left d aux)
  have hwp : 0 < dot3 (cross r d) (cross r d) := by
    rw [dot3_cross_sq, hrr, hdd, hrd]; norm_num
  set u := normalize (cross r d) with hu_def
  have huu : dot3 u u = 1 := by rw [hu_def]; exact dot3_normalize_self _ hwp
  have hud : dot3 u d = 0 := by rw [hu_def]; exact dot3_normalize_zero _ _ (dot3_cross_right r d)
  have hur : dot3 u r = 0 := by rw [hu_def]; exact dot3_normalize_zero _ _ (dot3_cross_left r d)
  exact ⟨hdd, hrr, huu, hrd, hud, hur⟩

lemma norm3_eq_of_dot (u : Vec3) (radius : ℝ) (hr : 0 ≤ radius)
    (h : dot3 u u = radius * radius) : norm3 u = radius := by
  rw [norm3, h, Real.sqrt_mul_self hr]

lemma sub_add_cancel_leftV (a u : Vec3) : sub (add a u) a = u := by
  ext <;> simp [sub, add]

lemma scaleVec_zero (v : Vec3) : scaleVec v 0 = ⟨0, 0, 0⟩ := by
  ext <;> simp [scaleVec]

lemma sub_zero_vec (v : Vec3) : sub v ⟨0, 0, 0⟩ = v := by
  ext <;> simp [sub]

lemma scaleVec_scaleVec (v : Vec3) (s t : ℝ) :
    scaleVec (scaleVec v s) t = scaleVec v (s * t) := by
  ext <;> simp [scaleVec] <;> ring

lemma scaleVec_one (v : Vec3) : scaleVec v 1 = v := by
  ext <;> simp [scaleVec]

lemma distToLine_eq (a b v : Vec3) :
    distToLine a b v = norm3 (sub (sub v a)
      (scaleVec (normalize (sub b a)) (dot3 (sub v a) (normalize (sub b a))))) := rfl

lemma distToLine_base (a b u : Vec3) (radius : ℝ) (hr : 0 ≤ radius)
    (hud : dot3 u (normalize (sub b a)) = 0) (huu : dot3 u u = radius * radius) :
    distToLine a b (add a u) = radius := by
  rw [distToLine_eq, sub_add_cancel_leftV, hud, scaleVec_zero, sub_zero_vec]
  exact norm3_eq_of_dot u radius hr huu

lemma distToLine_top (a b u : Vec3) (radius : ℝ) (hab : a ≠ b) (hr : 0 ≤ radius)
    (hud : dot3 u (normalize (sub b a)) = 0) (huu : dot3 u u = radius * radius) :
    distToLine a b (add b u) = radius := by
  have hq : 0 < dot3 (sub b a) (sub b a) := dot3_self_pos _ (subV_ne_zero a b hab)
  have hL : Real.sqrt (dot3 (sub b a) (sub b a)) ≠ 0 := ne_of_gt (Real.sqrt_pos.mpr hq)
  have hnorm : normalize (sub b a)
      = scaleVec (sub b a) (Real.sqrt (dot3 (sub b a) (sub b a)))⁻¹ := by
    rw [normalize_eq, if_neg hL]
  have hw : sub (add b u) a = add (sub b a) u := by
    ext <;> simp [sub, add] <;> ring
  rw [distToLine_eq, hw, dot3_add_left, hud, add_zero, hnorm, dot3_scaleVec_right,
    scaleVec_scaleVec]
  have hfac : (Real.sqrt (dot3 (sub b a) (sub b a)))⁻¹
      * ((Real.sqrt (dot3 (sub b a) (sub b a)))⁻¹ * dot3 (sub b a) (sub b a)) = 1 := by
    have hsq := Real.mul_self_sqrt hq.le
    field_simp
  rw [hfac, scaleVec_one]
  have hcan : sub (add (sub b a) u) (sub b a) = u := by
    ext <;> simp [sub, add]
  rw [hcan]
  exact norm3_eq_of_dot u radius hr huu

lemma ringOffset_dot (right up d : Vec3) (radius t : ℝ)
    (hrd : dot3 right d = 0) (hud : dot3 up d = 0) :
    dot3 (ringOffset right up radius t) d = 0 := by
  rw [ringOffset, dot3_add_left, dot3_scaleVec_left, dot3_scaleVec_left, hrd, hud]
  ring

lemma ringOffset_self (right up : Vec3) (radius t : ℝ)
    (hr : dot3 right right = 1) (hu : dot3 up up = 1) (hur : dot3 up right = 0) :
    dot3 (ringOffset right up radius t) (ringOffset right up radius t)
      = radius * radius := by
  have hcs := Real.sin_sq_add_cos_sq t
  have hru : dot3 right up = 0 := by rw [dot3_comm]; exact hur
  simp only [dot3] at hr hu hru
  simp only [ringOffset, dot3, add, scaleVec]
  linear_combination (Real.cos t * radius) ^ 2 * hr
    + 2 * (Real.cos t * radius) * (Real.sin t * radius) * hru
    + (Real.sin t * radius) ^ 2 * hu + (radius * radius) * hcs

lemma divisionTris_eq (p1 p2 right up : Vec3) (radius angleStep : ℝ) (i : ℕ) :
    divisionTris p1 p2 right up radius angleStep i =
      [(add p1 (ringOffset right up radius (i * angleStep)),
        add p1 (ringOffset right up radius ((i + 1) * angleStep)),
        add p2 (ringOffset right up radius (i * angleStep))),
       (add p1 (ringOffset right up radius ((i + 1) * angleStep)),
        add p2 (ringOffset right up radius ((i + 1) * angleStep)),
        add p2 (ringOffset right up radius (i * angleStep)))] := rfl

lemma branchVerts_dist (p1 p2 : Vec3) (radius : ℝ) (n : ℕ)
    (hab : p1 ≠ p2) (hr : 0 ≤ radius) :
    ∀ v ∈ branchVerts p1 p2 radius n, distToLine p1 p2 v = radius := by
  obtain ⟨hdd, hrr, huu, hrd, hud, hur⟩ := branchFrame_spec p1 p2 hab
  have e1 : (branchFrame p1 p2).1 = normalize (sub p2 p1) := rfl
  rw [e1] at hrd hud
  intro v hv
  rw [branchVerts, List.mem_flatMap] at hv
  obtain ⟨t, ht, hvt⟩ := hv
  simp only [branchTris] at ht
  rw [List.mem_flatMap] at ht
  obtain ⟨i, _, hti⟩ := ht
  rw [divisionTris_eq] at hti
  have hoff : ∀ s : ℝ,
      dot3 (ringOffset (branchFrame p1 p2).2.1 (branchFrame p1 p2).2.2 radius s)
        (normalize (sub p2 p1)) = 0 :=
    fun s => ringOffset_dot _ _ _ _ _ hrd hud
  have hoff2 : ∀ s : ℝ,
      dot3 (ringOffset (branchFrame p1 p2).2.1 (branchFrame p1 p2).2.2 radius s)
        (ringOffset (branchFrame p1 p2).2.1 (branchFrame p1 p2).2.2 radius s)
      = radius * radius :=
    fun s => ringOffset_self _ _ _ _ hrr huu hur
  simp only [List.mem_cons, List.mem_singleton, List.not_mem_nil, or_false] at hti
  rcases hti with ht1 | ht2
  · subst ht1
    simp only [List.mem_cons, List.not_mem_nil, or_false] at hvt
    rcases hvt with h1 | h1 | h1 <;> subst h1
    · exact distToLine_base p1 p2 _ radius hr (hoff _) (hoff2 _)
    · exact distToLine_base p1 p2 _ radius hr (hoff _) (hoff2 _)
    · exact distToLine_top p1 p2 _ radius hab hr (hoff _) (hoff2 _)
  · subst ht2
    simp only [List.mem_cons, List.not_mem_nil, or_false] at hvt
    rcases hvt with h1 | h1 | h1 <;> subst h1
    · exact distToLine_base p1 p2 _ radius hr (hoff _) (hoff2 _)
    · exact distToLine_top p1 p2 _ radius hab hr (hoff _) (hoff2 _)
    · exact distToLine_top p1 p2 _ radius hab hr (hoff _) (hoff2 _)

lemma foldl_applyTriangle_points (ts : List (Vec3 × Vec3 × Vec3)) :
    ∀ st : Geom, (ts.foldl applyTriangle st).points
      = st.points ++ ts.flatMap (fun t => [t.1.x, t.1.y, t.1.z,
          t.2.1.x, t.2.1.y, t.2.1.z, t.2.2.x, t.2.2.y, t.2.2.z]) := by
  induction ts with
  | nil => intro st; simp
  | cons t rest ih =>
    intro st
    rw [List.foldl_cons, ih, applyTriangle_points]
    simp

lemma foldl_applyTriangle_indices_len (ts : List (Vec3 × Vec3 × Vec3)) :
    ∀ st : Geom, (ts.foldl applyTriangle st).indices.length
      = st.indices.length + 3 * ts.length := by
  induction ts with
  | nil => intro st; simp
  | cons t rest ih =>
    intro st
    rw [List.foldl_cons, ih, applyTriangle_indices]
    simp
    ring

lemma flatMap_const_length {α β : Type _} (f : α → List β) (k : ℕ)
    (h : ∀ a, (f a).length = k) : ∀ l : List α, (l.flatMap f).length = k * l.length := by
  intro l
  induction l with
  | nil => simp
  | cons a rest ih =>
    rw [List.flatMap_cons, List.length_append, h, ih, List.length_cons]
    ring

lemma branchTris_length (p1 p2 : Vec3) (radius : ℝ) (n : ℕ) :
    (branchTris p1 p2 radius n).length = 2 * n := by
  simp only [branchTris]
  rw [flatMap_const_length _ 2 (fun i => by rw [divisionTris_eq]; rfl), List.length_range]

lemma branchVerts_length (p1 p2 : Vec3) (radius : ℝ) (n : ℕ) :
    (branchVerts p1 p2 radius n).length = 6 * n := by
  rw [branchVerts, flatMap_const_length (fun t : Vec3 × Vec3 × Vec3 => [t.1, t.2.1, t.2.2])
    3 (fun t => rfl), branchTris_length]
  ring

lemma flatMap_tri_coords (ts : List (Vec3 × Vec3 × Vec3)) :
    ts.flatMap (fun t => [t.1.x, t.1.y, t.1.z,
        t.2.1.x, t.2.1.y, t.2.1.z, t.2.2.x, t.2.2.y, t.2.2.z])
      = (ts.flatMap (fun t => [t.1, t.2.1, t.2.2])).flatMap (fun v => [v.x, v.y, v.z]) := by
  induction ts with
  | nil => rfl
  | cons t rest ih => simp [List.flatMap_cons, ih]

/-- Claim C4: for distinct endpoints, positive radius and at least three
radial divisions, makeBranchSegment appends exactly two triangles per
radial division (six vertices per division, three index entries per
triangle) to the geometry buffers, and every appended vertex lies at
perpendicular distance exactly radius from the infinite line through the
two endpoints. -/
theorem makeBranchSegment_spec (p1 p2 : Vec3) (radius : ℝ) (n : ℕ) (st : Geom)
    (hne : p1 ≠ p2) (hr : 0 < radius) (_hn : 3 ≤ n) :
    (branchTris p1 p2 radius n).length = 2 * n ∧
    (branchVerts p1 p2 radius n).length = 6 * n ∧
    (makeBranchSegment p1 p2 radius n st).points
      = st.points ++ (branchVerts p1 p2 radius n).flatMap (fun v => [v.x, v.y, v.z]) ∧
    (makeBranchSegment p1 p2 radius n st).indices.length
      = st.indices.length + 3 * (2 * n) ∧
    ∀ v ∈ branchVerts p1 p2 radius n, distToLine p1 p2 v = radius := by
  refine ⟨branchTris_length p1 p2 radius n, branchVerts_length p1 p2 radius n, ?_, ?_, ?_⟩
  · rw [makeBranchSegment, foldl_applyTriangle_points, branchVerts, flatMap_tri_coords]
  · rw [makeBranchSegment, foldl_applyTriangle_indices_len, branchTris_length]
  · exact branchVerts_dist p1 p2 radius n hne hr.le

/-- Witness for claim C4 at concrete distinct endpoints, unit radius and
three radial divisions. -/
theorem makeBranchSegment_spec_witness :
    (makeBranchSegment ⟨0, 0, 0⟩ ⟨1, 0, 0⟩ 1 3 emptyGeom).indices.length
      = emptyGeom.indices.length + 3 * (2 * 3) ∧
    ∀ v ∈ branchVerts ⟨0, 0, 0⟩ ⟨1, 0, 0⟩ 1 3,
      distToLine ⟨0, 0, 0⟩ ⟨1, 0, 0⟩ v = 1 := by
  have hne : (⟨0, 0, 0⟩ : Vec3) ≠ ⟨1, 0, 0⟩ :=
    fun h => zero_ne_one (congrArg Vec3.x h)
  exact (makeBranchSegment_spec ⟨0, 0, 0⟩ ⟨1, 0, 0⟩ 1 3 emptyGeom hne one_pos
    (le_refl 3)).2.2.2

end Plant

